import Mathlib

/-!
Verification of the release-notes generation core of this repository
(scripts/generate-release-notes.mjs and the backfill script).

Text is modelled as `List Char`.  The JavaScript regular-expression
transforms are embedded as structural state machines over the character
list; `\s` is modelled by the ASCII whitespace characters (all inputs in
the repository and in the claims are ASCII), and multiline `^` matches at
the string start and after a LF or CR, as in JavaScript.
-/

set_option maxRecDepth 8192

namespace RelNotes

/-- ASCII whitespace, the ASCII fragment of JavaScript `\s` (and of
`String.prototype.trim`). -/
def isWsChar (c : Char) : Bool :=
  c = ' ' || c = '\t' || c = '\n' || c = '\r' || c = '\x0b' || c = '\x0c'

/-- Line terminators recognised by JavaScript multiline `^`. -/
def isLineTerm (c : Char) : Bool :=
  c = '\n' || c = '\r'

/-- JavaScript `\d` (codes 48 to 57). -/
def isDigitChar (c : Char) : Bool :=
  48 ≤ c.toNat && c.toNat ≤ 57

/-- ASCII upper-case letter (codes 65 to 90). -/
def isUpperAscii (c : Char) : Bool :=
  65 ≤ c.toNat && c.toNat ≤ 90

/-- ASCII lower-case letter (codes 97 to 122). -/
def isLowerAscii (c : Char) : Bool :=
  97 ≤ c.toNat && c.toNat ≤ 122

/-- JavaScript `\w`: letters, digits and underscore. -/
def isWordChar (c : Char) : Bool :=
  isUpperAscii c || isLowerAscii c || isDigitChar c || c = '_'

/-- `text.replace(/\r\n/g, '\n')`: left-to-right, non-overlapping. -/
def crlfToLf : List Char → List Char
  | [] => []
  | c :: rest =>
    if c = '\r' then
      match rest with
      | [] => [c]
      | '\n' :: rs => '\n' :: crlfToLf rs
      | d :: rs => c :: crlfToLf (d :: rs)
    else c :: crlfToLf rest

/-- State machine for `text.replace(/^[-*]\s+/gm, '')`.
`skipping` is true while consuming the `\s+` run of a match;
`atStart` is true when the current position is a line start
(string start or just after a line terminator). -/
def stripBulletsGo : Bool → Bool → List Char → List Char
  | _, _, [] => []
  | skipping, atStart, c :: rest =>
    if skipping && isWsChar c then stripBulletsGo true (isLineTerm c) rest
    else if atStart && (c = '-' || c = '*') then
      match rest with
      | [] => [c]
      | r :: rs =>
        if isWsChar r then stripBulletsGo true (isLineTerm r) rs
        else c :: stripBulletsGo false false (r :: rs)
    else c :: stripBulletsGo false (isLineTerm c) rest

/-- `text.replace(/^[-*]\s+/gm, '')`. -/
def stripBullets (l : List Char) : List Char :=
  stripBulletsGo false true l

/-- State machine for `text.replace(/^\d+\.\s+/gm, '')`.
`acc = some ds` means a candidate digit run `ds` (reversed) has been read
at a line start and the machine still awaits `.` followed by whitespace;
on failure the buffered digits are emitted unchanged.  `skipping` and
`atStart` are as in `stripBulletsGo`. -/
def stripNumsGo : Option (List Char) → Bool → Bool → List Char → List Char
  | none, _, _, [] => []
  | some acc, _, _, [] => acc.reverse
  | none, skipping, atStart, c :: rest =>
    if skipping && isWsChar c then stripNumsGo none true (isLineTerm c) rest
    else if atStart && isDigitChar c then stripNumsGo (some [c]) false false rest
    else c :: stripNumsGo none false (isLineTerm c) rest
  | some acc, _, _, c :: rest =>
    if isDigitChar c then stripNumsGo (some (c :: acc)) false false rest
    else if c = '.' then
      match rest with
      | [] => acc.reverse ++ ['.']
      | r :: rs =>
        if isWsChar r then stripNumsGo none true (isLineTerm r) rs
        else acc.reverse ++ '.' :: r :: stripNumsGo none false (isLineTerm r) rs
    else acc.reverse ++ c :: stripNumsGo none false (isLineTerm c) rest

/-- `text.replace(/^\d+\.\s+/gm, '')`. -/
def stripNums (l : List Char) : List Char :=
  stripNumsGo none false true l

/-- State machine for `text.replace(/\n{3,}/g, '\n\n')`: `n` counts the
newline run currently being read; a run of three or more is emitted as
exactly two newlines. -/
def collapseNlGo : Nat → List Char → List Char
  | n, [] => List.replicate (min n 2) '\n'
  | n, c :: rest =>
    if c = '\n' then collapseNlGo (n + 1) rest
    else List.replicate (min n 2) '\n' ++ c :: collapseNlGo 0 rest

/-- `text.replace(/\n{3,}/g, '\n\n')`. -/
def collapseNl (l : List Char) : List Char :=
  collapseNlGo 0 l

/-- Remove trailing whitespace (`trim`, right half). -/
def trimRightWs (l : List Char) : List Char :=
  (l.reverse.dropWhile isWsChar).reverse

/-- JavaScript `String.prototype.trim` on the ASCII fragment. -/
def trimWs (l : List Char) : List Char :=
  trimRightWs (l.dropWhile isWsChar)

/-- `normalizeSummaryText` from scripts/generate-release-notes.mjs:
CRLF to LF, strip leading bullet markers, strip leading ordered-list
markers, collapse blank-line runs, trim. -/
def normalizeSummaryText (l : List Char) : List Char :=
  trimWs (collapseNl (stripNums (stripBullets (crlfToLf l))))

example : normalizeSummaryText "- a\n1. b".toList = "a\nb".toList := by decide
example : normalizeSummaryText "a\n\n\n\n\nb ".toList = "a\n\nb".toList := by decide
example : normalizeSummaryText "1. - x".toList = "- x".toList := by decide
example : normalizeSummaryText "a\r\r\nb".toList = "a\r\nb".toList := by decide
example : normalizeSummaryText (normalizeSummaryText "a\r\r\nb".toList)
    = "a\nb".toList := by decide

/-- State machine for `text.replace(/\s+/g, ' ')`: a whitespace run is
emitted as a single space; `inRun` is true while inside a run. -/
def wsRunsToSpace : Bool → List Char → List Char
  | _, [] => []
  | inRun, c :: rest =>
    if isWsChar c then
      if inRun then wsRunsToSpace true rest
      else ' ' :: wsRunsToSpace true rest
    else c :: wsRunsToSpace false rest

/-- `s.replace(/\s+/g, ' ')`. -/
def flattenWs (l : List Char) : List Char :=
  wsRunsToSpace false l

/-- Index of the last occurrence of `c` among the first `i+1` positions,
as an accumulator-driven scan. -/
def lastIdxOfUpToGo (c : Char) : Nat → Nat → Option Nat → List Char → Option Nat
  | _, _, acc, [] => acc
  | bound, i, acc, d :: rest =>
    if i > bound then acc
    else lastIdxOfUpToGo c bound (i + 1) (if d = c then some i else acc) rest

/-- JavaScript `s.lastIndexOf(c, bound)`: the largest index `≤ bound`
holding `c`, or `-1`. -/
def lastIdxOfUpTo (c : Char) (bound : Nat) (l : List Char) : Int :=
  match lastIdxOfUpToGo c bound 0 none l with
  | some i => (i : Int)
  | none => -1

/-- JavaScript `s.lastIndexOf(c)` (no bound, so bounded by the length). -/
def lastIdxOf (c : Char) (l : List Char) : Int :=
  lastIdxOfUpTo c l.length l

/-- `toSingleLineSummary(text, maxLen)` from the generator: normalize,
flatten all whitespace runs to single spaces, and truncate to `maxLen`
with a trailing ellipsis, preferring the last space as the cut point when
it lies beyond 60 percent of `maxLen`.  The comparison
`lastSpace > maxLen * 0.6` is on IEEE doubles; at the default
`maxLen = 200` the double `200 * 0.6` is just below `120`, so the
comparison holds exactly when `10 * lastSpace ≥ 6 * maxLen`, which is how
it is rendered here. -/
def toSingleLineSummary (l : List Char) (maxLen : Nat) : List Char :=
  let oneLine := flattenWs (normalizeSummaryText l)
  if oneLine = [] then []
  else if oneLine.length ≤ maxLen then oneLine
  else
    let truncated := oneLine.take maxLen
    let lastSpace := lastIdxOf ' ' truncated
    if 6 * (maxLen : Int) ≤ 10 * lastSpace then
      truncated.take lastSpace.toNat ++ ['…']
    else
      oneLine.take (maxLen - 1) ++ ['…']

example : toSingleLineSummary "a\nb   c".toList 200 = "a b c".toList := by decide
example : toSingleLineSummary "one two three".toList 9 = "one two…".toList := by
  decide
example : toSingleLineSummary "abcdefghijkl".toList 9 = "abcdefgh…".toList := by
  decide

/-- `s.split(sep)` for a single-character separator. -/
def splitOnChar (sep : Char) : List Char → List (List Char)
  | [] => [[]]
  | c :: rest =>
    if c = sep then [] :: splitOnChar sep rest
    else
      match splitOnChar sep rest with
      | [] => [[c]]
      | h :: t => (c :: h) :: t

/-- `body.split('\n')` (after the CRLF replacement has been applied). -/
def splitNl : List Char → List (List Char) :=
  splitOnChar '\n'

/-- `parts.join(sep)` for a single-character separator. -/
def joinSep (sep : Char) : List (List Char) → List Char
  | [] => []
  | [l] => l
  | l :: rest => l ++ sep :: joinSep sep rest

/-- `lines.join('\n')`. -/
def joinNl : List (List Char) → List Char :=
  joinSep '\n'

example : splitNl "ab\n\nc".toList = ["ab".toList, [], "c".toList] := by decide
example : joinNl (splitNl "ab\n\nc".toList) = "ab\n\nc".toList := by decide

/-- Case-insensitive character comparison as JavaScript `/i` performs it
on ASCII: equal, or equal up to the 32 offset between the two ASCII
letter cases. -/
def ciEq (a b : Char) : Bool :=
  a = b
    || (isUpperAscii a && b.toNat = a.toNat + 32)
    || (isUpperAscii b && a.toNat = b.toNat + 32)

/-- Consume `w` case-insensitively from the front of `l`, returning the
remainder. -/
def stripCI : List Char → List Char → Option (List Char)
  | [], l => some l
  | _ :: _, [] => none
  | c :: w, d :: l => if ciEq c d then stripCI w l else none

example : stripCI "sum".toList "SUMmary".toList = some "mary".toList := by decide
example : stripCI "sum".toList "sub".toList = none := by decide

/-- ASCII `toLowerCase` on one character. -/
def lowerChar (c : Char) : Char :=
  if isUpperAscii c then Char.ofNat (c.toNat + 32) else c

/-- ASCII `toUpperCase` on one character. -/
def upperChar (c : Char) : Char :=
  if isLowerAscii c then Char.ofNat (c.toNat - 32) else c

/-- Characters eaten by the markdown-emphasis strippers. -/
def isEmphChar (c : Char) : Bool :=
  c = '*' || c = '_' || c = '#'

/-- `*` or `_`. -/
def isStarU (c : Char) : Bool :=
  c = '*' || c = '_'

/-- Matcher for `CODERABBIT_MARKER_RE`
`^(?:[*_#]*\s*)*summary\s+by\s+coderabbit\s*(?:[*_]*\s*)$/i` of
generate-release-notes.mjs.  The leading group accepts any mix of
emphasis characters and whitespace, the trailing part accepts
whitespace, then emphasis characters, then whitespace. -/
def markerMatch (l : List Char) : Bool :=
  let l1 := l.dropWhile (fun c => isEmphChar c || isWsChar c)
  match stripCI "summary".toList l1 with
  | none => false
  | some r1 =>
    match r1 with
    | c :: r2 =>
      isWsChar c &&
        (match stripCI "by".toList (r2.dropWhile isWsChar) with
         | none => false
         | some r3 =>
           match r3 with
           | d :: r4 =>
             isWsChar d &&
               (match stripCI "coderabbit".toList (r4.dropWhile isWsChar) with
                | none => false
                | some r5 =>
                  ((r5.dropWhile isWsChar).dropWhile isStarU).dropWhile isWsChar
                    = [])
           | [] => false)
    | [] => false

example : markerMatch "Summary by CodeRabbit".toList = true := by decide
example : markerMatch "## Summary by CodeRabbit".toList = true := by decide
example : markerMatch "**Summary by CodeRabbit**".toList = true := by decide
example : markerMatch "Summary by CodeRabbits".toList = false := by decide
example : markerMatch "Summary by".toList = false := by decide

/-- Matcher for the `SUMMARY_HEADING_PATTERNS` shape
`^#{2,3}\s*<word>\s*$/i`: exactly two or three leading `#`, optional
whitespace, the word, optional whitespace, end of line. -/
def headingWordMatch (w : String) (l : List Char) : Bool :=
  let hashes := l.takeWhile (fun c => c = '#')
  (hashes.length = 2 || hashes.length = 3) &&
    (match stripCI w.toList ((l.drop hashes.length).dropWhile isWsChar) with
     | some r => r.dropWhile isWsChar = []
     | none => false)

/-- The four summary-heading matchers, in source order. -/
def summaryHeadingMatchers : List (List Char → Bool) :=
  [headingWordMatch "summary", headingWordMatch "tldr",
   headingWordMatch "tl;dr", headingWordMatch "overview"]

example : headingWordMatch "summary" "## Summary".toList = true := by decide
example : headingWordMatch "summary" "###  SUMMARY ".toList = true := by decide
example : headingWordMatch "summary" "#### Summary".toList = false := by decide
example : headingWordMatch "summary" "# Summary".toList = false := by decide
example : headingWordMatch "tl;dr" "## TL;DR".toList = true := by decide

/-- Matcher for `^#{2,6}\s+`: two to six leading `#` followed by at
least one whitespace character. -/
def mdHeadingBoundary (l : List Char) : Bool :=
  let hashes := l.takeWhile (fun c => c = '#')
  2 ≤ hashes.length && hashes.length ≤ 6 &&
    (match l.drop hashes.length with
     | c :: _ => isWsChar c
     | [] => false)

example : mdHeadingBoundary "## Next".toList = true := by decide
example : mdHeadingBoundary "##Next".toList = false := by decide
example : mdHeadingBoundary "####### x".toList = false := by decide

/-- The fourteen recognised CodeRabbit section titles. -/
def crSectionTitles : List String :=
  ["New Features", "Bug Fixes", "Improvements", "Refactor", "Chores",
   "Data", "Validation", "Documentation", "Tests", "Style", "Performance",
   "Other Changes", "Enhancements", "Breaking Changes"]

/-- `line.replace(/^[*_#]+\s*/, '')`: drop a leading run of emphasis
characters together with the whitespace that follows it. -/
def stripLeadEmph (l : List Char) : List Char :=
  match l with
  | [] => []
  | c :: _ =>
    if isEmphChar c then (l.dropWhile isEmphChar).dropWhile isWsChar
    else l

/-- `line.replace(/\s*[*_]+$/, '')`: drop a trailing run of `*`/`_`
together with the whitespace just before it. -/
def stripTrailEmph (l : List Char) : List Char :=
  match l.reverse with
  | [] => []
  | c :: _ =>
    if isStarU c then
      (((l.reverse.dropWhile isStarU).dropWhile isWsChar).reverse)
    else l

/-- `isCodeRabbitSectionTitle` from generate-release-notes.mjs: strip
emphasis from both ends, trim, and look the result up in the closed set
of section titles, returning the canonical title. -/
def sectionTitleOf (l : List Char) : Option String :=
  let cleaned := trimWs (stripTrailEmph (stripLeadEmph l))
  crSectionTitles.find? (fun t => t.toList == cleaned)

example : sectionTitleOf "New Features".toList = some "New Features" := by decide
example : sectionTitleOf "**Bug Fixes**".toList = some "Bug Fixes" := by decide
example : sectionTitleOf "### Chores".toList = some "Chores" := by decide
example : sectionTitleOf "Random".toList = none := by decide

/-- Scan for the first line whose trimmed form satisfies `f` and return
the lines after it (the `findIndex` + slice pattern of the source). -/
def linesAfterMatch (f : List Char → Bool) : List (List Char) → Option (List (List Char))
  | [] => none
  | l :: rest => if f (trimWs l) then some rest else linesAfterMatch f rest

/-- Take lines until one whose trimmed form is a markdown heading of
level 2 to 6 (`extractSectionUnderHeading`, end scan). -/
def takeUntilHeading : List (List Char) → List (List Char)
  | [] => []
  | l :: rest =>
    if mdHeadingBoundary (trimWs l) then []
    else l :: takeUntilHeading rest

/-- `extractSectionUnderHeading(body, headingMatchFn)`: the joined text
of the lines between the first matching heading and the next markdown
heading (or end of text); empty if no heading matches. -/
def extractSectionUnderHeading (body : List Char) (f : List Char → Bool) : List Char :=
  if body = [] then []
  else
    match linesAfterMatch f (splitNl (crlfToLf body)) with
    | none => []
    | some rest => joinNl (takeUntilHeading rest)

/-- One categorised summary item of the structured block. -/
structure SItem where
  sec : String
  text : List Char
deriving DecidableEq, Repr

/-- The `sectionPriority` ranking table (unknown sections rank 99). -/
def sectionPrio : String → Nat
  | "New Features" => 0
  | "Enhancements" => 0
  | "Bug Fixes" => 1
  | "Improvements" => 2
  | "Validation" => 3
  | "Refactor" => 4
  | "Performance" => 4
  | "Chores" => 5
  | "Data" => 6
  | "Documentation" => 7
  | "Tests" => 7
  | "Style" => 8
  | "Other Changes" => 9
  | "Breaking Changes" => 0
  | _ => 99

/-- Insert an item after every already-placed item of lower or equal
rank: the stable insertion step. -/
def insertItem (it : SItem) : List SItem → List SItem
  | [] => [it]
  | x :: xs =>
    if sectionPrio x.sec ≤ sectionPrio it.sec then x :: insertItem it xs
    else it :: x :: xs

/-- `items.sort((a, b) => prio(a) - prio(b))`: JavaScript `sort` is
stable, modelled by left-to-right stable insertion. -/
def sortItems (l : List SItem) : List SItem :=
  l.foldl (fun acc it => insertItem it acc) []

/-- The selection loop: up to 4 items in total, skipping (without
counting) any item whose section already has 2 selected items. -/
def selectLoop : List SItem → List SItem → List SItem
  | sel, [] => sel
  | sel, it :: rest =>
    if 4 ≤ sel.length then sel
    else if 2 ≤ (sel.filter (fun s => s.sec == it.sec)).length then
      selectLoop sel rest
    else selectLoop (sel ++ [it]) rest

/-- Block capture after the marker line: collect lines (blank lines are
kept) until another marker, a markdown heading, or a literal `image`
line. -/
def captureBlock : List (List Char) → List (List Char)
  | [] => []
  | l :: rest =>
    let t := trimWs l
    if t = [] then ([] : List Char) :: captureBlock rest
    else if markerMatch t then []
    else if mdHeadingBoundary t then []
    else if t.map lowerChar = "image".toList then []
    else l :: captureBlock rest

/-- Items of the sectioned block: section-title lines switch the current
section, other non-blank lines under a section become items with their
leading bullet marker stripped (`line.replace(/^[-*]\s+/, '').trim()`). -/
def stripOneBullet (l : List Char) : List Char :=
  match l with
  | c :: r :: rs =>
    if (c = '-' || c = '*') && isWsChar r then (r :: rs).dropWhile isWsChar
    else l
  | _ => l

/-- Walk the block lines accumulating items under the current section;
lines before the first section title are ignored. -/
def collectItems : Option String → List (List Char) → List SItem
  | _, [] => []
  | cur, l :: rest =>
    let line := trimWs l
    if line = [] then collectItems cur rest
    else
      match sectionTitleOf line with
      | some s => collectItems (some s) rest
      | none =>
        match cur with
        | none => collectItems none rest
        | some s => ⟨s, trimWs (stripOneBullet line)⟩ :: collectItems (some s) rest

/-- Lower-case the first character (`text.charAt(0).toLowerCase() + text.slice(1)`). -/
def lowerFirst : List Char → List Char
  | [] => []
  | c :: r => lowerChar c :: r

/-- Upper-case the first character. -/
def capFirst : List Char → List Char
  | [] => []
  | c :: r => upperChar c :: r

/-- Per-item truncation of the renderer: if longer than 80 characters,
cut at the last space at index at most 77 when that space is beyond
index 40, else hard-cut at 77, and append three dots. -/
def truncItem (t : List Char) : List Char :=
  if 80 < t.length then
    let cut := lastIdxOfUpTo ' ' 77 t
    (if 40 < cut then t.take cut.toNat else t.take 77) ++ "...".toList
  else t

/-- The per-section verbal transform of generate-release-notes.mjs
(note the `performance: ` label case). -/
def sectionTransform (sec : String) (text : List Char) : List Char :=
  if sec = "New Features" || sec = "Enhancements" then text
  else if sec = "Bug Fixes" then "fixed ".toList ++ text
  else if sec = "Improvements" then "improved ".toList ++ text
  else if sec = "Validation" then "added validation for ".toList ++ text
  else if sec = "Performance" then "performance: ".toList ++ text
  else text

/-- The per-section verbal transform of the backfill script, which has
no `Performance` case. -/
def sectionTransformBackfill (sec : String) (text : List Char) : List Char :=
  if sec = "New Features" || sec = "Enhancements" then text
  else if sec = "Bug Fixes" then "fixed ".toList ++ text
  else if sec = "Improvements" then "improved ".toList ++ text
  else if sec = "Validation" then "added validation for ".toList ++ text
  else text

/-- One rendered fragment. -/
def partOfItem (it : SItem) : List Char :=
  sectionTransform it.sec (truncItem (lowerFirst it.text))

/-- Oxford-style tail for three or more fragments: `, p` between inner
fragments and `, and p` before the last. -/
def oxfordTail : List (List Char) → List Char
  | [] => []
  | [p] => ", and ".toList ++ p
  | p :: rest => ", ".toList ++ p ++ oxfordTail rest

/-- Join the fragments into one sentence: one fragment capitalised; two
joined with ` and `; three or more in Oxford-comma style. -/
def renderParts : List (List Char) → List Char
  | [] => []
  | [p] => capFirst p
  | [p1, p2] => capFirst p1 ++ " and ".toList ++ p2
  | p1 :: rest => capFirst p1 ++ oxfordTail rest

/-- `extractCodeRabbitSummary` from generate-release-notes.mjs. -/
def extractCodeRabbitSummary (body : List Char) : List Char :=
  if body = [] then []
  else
    match linesAfterMatch markerMatch (splitNl (crlfToLf body)) with
    | none => []
    | some afterMarker =>
      let blockLines := captureBlock afterMarker
      let block := trimWs (joinNl blockLines)
      if block = [] then []
      else if !(blockLines.any (fun l => (sectionTitleOf (trimWs l)).isSome)) then
        normalizeSummaryText block
      else
        let items := collectItems none blockLines
        if items = [] then []
        else
          let selected := selectLoop [] (sortItems items)
          normalizeSummaryText (renderParts (selected.map partOfItem))

/-- `extractPreferredSummaryFromBody`: the structured summary if present,
else the first non-empty normalized heading section, else empty. -/
def firstHeadingSummary : List (List Char → Bool) → List Char → List Char
  | [], _ => []
  | f :: fs, body =>
    let n := normalizeSummaryText (extractSectionUnderHeading body f)
    if n ≠ [] then n else firstHeadingSummary fs body

/-- The summary-selection chain of the generator. -/
def extractPreferredSummaryFromBody (body : List Char) : List Char :=
  if body = [] then []
  else
    let cr := extractCodeRabbitSummary body
    if cr ≠ [] then cr
    else firstHeadingSummary summaryHeadingMatchers body

example :
    extractCodeRabbitSummary
      "Summary by CodeRabbit\n\nNew Features\n- Added dark mode\n\nBug Fixes\n- Fixed crash on save\n".toList
    = "Added dark mode and fixed fixed crash on save".toList := by decide

example :
    extractPreferredSummaryFromBody "intro\n## Summary\nDoes things.\n## Next\nx".toList
    = "Does things.".toList := by decide

example : extractPreferredSummaryFromBody "just some text\nno sections".toList = [] := by
  decide

/-- The conventional-commit keywords of the title cleaner, in source
order (no keyword is a prefix of another, so the order is immaterial). -/
def convKeywords : List String :=
  ["feat", "fix", "chore", "refactor", "docs", "ci", "style", "perf",
   "test", "build"]

/-- After a keyword: `\s*(?:\([^)]*\))?\s*:\s*` — optional scope in
parentheses, then a colon; returns the remainder after the final
whitespace run, or `none` when the pattern does not complete. -/
def convTail (r : List Char) : Option (List Char) :=
  match r.dropWhile isWsChar with
  | '(' :: r2 =>
    (match r2.dropWhile (fun c => !(c = ')')) with
     | ')' :: r4 =>
       (match r4.dropWhile isWsChar with
        | ':' :: r6 => some (r6.dropWhile isWsChar)
        | _ => none)
     | _ => none)
  | ':' :: r6 => some (r6.dropWhile isWsChar)
  | _ => none

/-- `t.replace(/^(?:feat|fix|...)\s*(?:\([^)]*\))?\s*:\s*/i, '')`. -/
def stripConvMarker (l : List Char) : List Char :=
  (convKeywords.findSome? fun k =>
    match stripCI k.toList l with
    | some r => convTail r
    | none => none).getD l

example : stripConvMarker "feat(TEC-1): Allow x".toList = "Allow x".toList := by decide
example : stripConvMarker "fix: y".toList = "y".toList := by decide
example : stripConvMarker "fixture: y".toList = "fixture: y".toList := by decide
example : stripConvMarker "feat(: y".toList = "feat(: y".toList := by decide

/-- `^[A-Z]{2,}-\d+\//`: at least two upper-case letters, a hyphen, at
least one digit, then a slash. -/
def ticketLead (l : List Char) : Bool :=
  let u := l.takeWhile isUpperAscii
  2 ≤ u.length &&
    (match l.drop u.length with
     | '-' :: r =>
       let d := r.takeWhile isDigitChar
       1 ≤ d.length &&
         (match r.drop d.length with
          | '/' :: _ => true
          | _ => false)
     | _ => false)

/-- `^[A-Z]{2,}-\d+$`: a ticket-identifier segment. -/
def ticketSeg (l : List Char) : Bool :=
  let u := l.takeWhile isUpperAscii
  2 ≤ u.length &&
    (match l.drop u.length with
     | '-' :: r =>
       let d := r.takeWhile isDigitChar
       1 ≤ d.length && r.drop d.length = []
     | _ => false)

/-- `^[A-Z][a-z]+-[A-Z][a-z]+$`: an `Author-Name` segment. -/
def authorSeg (l : List Char) : Bool :=
  match l with
  | c :: r =>
    isUpperAscii c &&
      (let low := r.takeWhile isLowerAscii
       1 ≤ low.length &&
         (match r.drop low.length with
          | '-' :: c2 :: r2 =>
            isUpperAscii c2 &&
              (let low2 := r2.takeWhile isLowerAscii
               1 ≤ low2.length && r2.drop low2.length = [])
          | _ => false))
  | [] => false

example : ticketLead "TEC-7097/x".toList = true := by decide
example : ticketLead "Tec-7097/x".toList = false := by decide
example : ticketSeg "TEC-7097".toList = true := by decide
example : authorSeg "Carlo-Sanchez".toList = true := by decide
example : authorSeg "Weekly-Update-Character-Limit".toList = false := by decide

/-- The segment filter of the title cleaner: drop ticket segments, and
drop the final segment when it is an `Author-Name` pattern.  The final
position is determined via `segments.indexOf(s)`, i.e. the index of the
first segment equal to `s`, as in the source. -/
def meaningfulSegs (segs : List (List Char)) : List (List Char) :=
  segs.filter fun s =>
    !(ticketSeg s) &&
      !(segs.findIdx (fun x => x == s) == segs.length - 1 && authorSeg s)

/-- The casing step of the title cleaner: if the text equals its own
upper-casing and is longer than 3 characters, lower-case all but the
first character; otherwise upper-case only the first character. -/
def sentenceCase : List Char → List Char
  | [] => []
  | c :: rest =>
    if (c :: rest) = (c :: rest).map upperChar && 3 < (c :: rest).length then
      upperChar c :: rest.map lowerChar
    else upperChar c :: rest

/-- `cleanPRTitle` from generate-release-notes.mjs. -/
def cleanPRTitle (raw : List Char) : List Char :=
  let t0 := trimWs raw
  let t1 := stripConvMarker t0
  let t2 :=
    if ticketLead t1 then
      let m := meaningfulSegs (splitOnChar '/' t1)
      if m ≠ [] then joinSep ' ' m else t1
    else t1
  sentenceCase (trimWs (flattenWs (t2.map fun c => if c = '-' then ' ' else c)))

example :
    cleanPRTitle "TEC-7097/Weekly-Update-Character-Limit/Carlo-Sanchez".toList
    = "Weekly Update Character Limit".toList := by decide
example :
    cleanPRTitle "feat(TEC-6520): Allow deleting L4 items in change orders".toList
    = "Allow deleting L4 items in change orders".toList := by decide
example : cleanPRTitle "Sprint 3".toList = "Sprint 3".toList := by decide
example : cleanPRTitle "WIP".toList = "WIP".toList := by decide
example : cleanPRTitle "ABCD".toList = "Abcd".toList := by decide

/-- Word-boundary test at the current position: the word matches
case-insensitively here and the character after it (if any) is not a
word character.  The position's left boundary is checked by the caller. -/
def wordHere (w : List Char) (l : List Char) : Bool :=
  match stripCI w l with
  | some [] => true
  | some (d :: _) => !isWordChar d
  | none => false

/-- Scan every position for a whole-word occurrence; `leftOk` records
whether the previous character (if any) was a non-word character. -/
def containsWordGo (w : List Char) : Bool → List Char → Bool
  | _, [] => false
  | leftOk, c :: rest =>
    (leftOk && wordHere w (c :: rest)) || containsWordGo w (!isWordChar c) rest

/-- `/\b<w>\b/i.test(l)` for a word `w` made of word characters. -/
def containsWordCI (w l : List Char) : Bool :=
  containsWordGo w true l

/-- `shouldExcludePRTitle`: the three `EXCLUDE_TITLE_PATTERNS`
(`/\bstaging\b/i`, `/^update staging\b/i`, `/^staging\b/i`). -/
def shouldExcludePRTitle (t : List Char) : Bool :=
  containsWordCI "staging".toList t
    || wordHere "update staging".toList t
    || wordHere "staging".toList t

example : shouldExcludePRTitle "Update staging config".toList = true := by decide
example : shouldExcludePRTitle "Deploy to STAGING now".toList = true := by decide
example : shouldExcludePRTitle "Restaging things".toList = false := by decide
example : shouldExcludePRTitle "Fix login".toList = false := by decide

/-- `isFix`: `/^fix/i.test(t) || /\bfix\b/i.test(t)` on the original
title. -/
def isFixTitle (t : List Char) : Bool :=
  (stripCI "fix".toList t).isSome || containsWordCI "fix".toList t

/-- `isSprint`: `/^sprint\s+\d+/i.test(t)`. -/
def isSprintTitle (t : List Char) : Bool :=
  match stripCI "sprint".toList t with
  | some (c :: r) =>
    isWsChar c &&
      (match r.dropWhile isWsChar with
       | d :: _ => isDigitChar d
       | [] => false)
  | _ => false

/-- `/^Sprint\s+\d+$/i.test(t)`: like `isSprintTitle` but anchored at
the end. -/
def sprintExactTitle (t : List Char) : Bool :=
  match stripCI "sprint".toList t with
  | some (c :: r) =>
    isWsChar c &&
      (let rd := r.dropWhile isWsChar
       let ds := rd.takeWhile isDigitChar
       1 ≤ ds.length && rd.drop ds.length = [])
  | _ => false

example : isFixTitle "Fixture work".toList = true := by decide
example : isFixTitle "Prefixes".toList = false := by decide
example : isSprintTitle "Sprint  12 extras".toList = true := by decide
example : sprintExactTitle "Sprint 12 extras".toList = false := by decide
example : sprintExactTitle "sprint 12".toList = true := by decide

/-- The display title selected by the pipeline: the single-line body
summary, or the cleaned original title when that is empty. -/
def displayTitle (title body : List Char) : List Char :=
  let s := toSingleLineSummary (extractPreferredSummaryFromBody body) 200
  if s = [] then cleanPRTitle title else s

/-- One grouped display record of the pipeline. -/
structure DisplayEntry where
  title : List Char
  isFix : Bool
  isSprint : Bool
deriving DecidableEq, Repr

/-- The per-record pipeline of `main`: exclusion, classification from
the original title, summary selection, and the sprint-bundle suffix. -/
def pipelineEntry (title body : List Char) : Option DisplayEntry :=
  if shouldExcludePRTitle title then none
  else
    let fix := isFixTitle title
    let spr := isSprintTitle title
    let d0 := displayTitle title body
    let d := if spr && sprintExactTitle d0 then d0 ++ " release bundle".toList else d0
    some ⟨d, fix, spr⟩

example :
    pipelineEntry "Sprint 3".toList []
    = some ⟨"Sprint 3 release bundle".toList, false, true⟩ := by decide
example : pipelineEntry "Update staging config".toList [] = none := by decide

/-! ## Lemmas about the selection loop -/

lemma selectLoop_len_le (items : List SItem) :
    ∀ sel : List SItem, sel.length ≤ 4 → (selectLoop sel items).length ≤ 4 := by
  induction items with
  | nil => intro sel h; simpa [selectLoop] using h
  | cons it rest ih =>
    intro sel h
    simp only [selectLoop]
    split_ifs with h4 h2
    · exact h
    · exact ih sel h
    · exact ih (sel ++ [it]) (by simp; omega)

lemma selectLoop_filter_le (items : List SItem) :
    ∀ (sel : List SItem) (sec : String),
      (sel.filter (fun s => s.sec == sec)).length ≤ 2 →
      ((selectLoop sel items).filter (fun s => s.sec == sec)).length ≤ 2 := by
  induction items with
  | nil => intro sel sec h; simpa [selectLoop] using h
  | cons it rest ih =>
    intro sel sec h
    simp only [selectLoop]
    split_ifs with h4 h2
    · exact h
    · exact ih sel sec h
    · apply ih
      rw [List.filter_append, List.length_append]
      by_cases hs : (it.sec == sec) = true
      · have hseq : it.sec = sec := by
          exact eq_of_beq hs
        subst hseq
        have hcnt : (sel.filter (fun s => s.sec == it.sec)).length ≤ 1 := by
          omega
        simp only [List.filter, hs]
        simp
        omega
      · simp only [List.filter, hs]
        simpa using h

lemma selectLoop_skip (sel : List SItem) (it : SItem) (rest : List SItem)
    (h1 : sel.length < 4)
    (h2 : 2 ≤ (sel.filter (fun s => s.sec == it.sec)).length) :
    selectLoop sel (it :: rest) = selectLoop sel rest := by
  simp only [selectLoop]
  rw [if_neg (by omega), if_pos h2]

/-! ## Claim theorems -/

/-- C3: the structured-summary selection loop selects at most 4 items in
total and at most 2 per section, and an item skipped because its section
already holds 2 selected items does not count toward the 4: the loop
simply continues with the remaining items. -/
theorem selection_caps_and_skip_continues :
    ∀ items : List SItem,
      (selectLoop [] items).length ≤ 4 ∧
      (∀ sec : String,
        ((selectLoop [] items).filter (fun s => s.sec == sec)).length ≤ 2) ∧
      (∀ (sel : List SItem) (it : SItem) (rest : List SItem),
        sel.length < 4 →
        2 ≤ (sel.filter (fun s => s.sec == it.sec)).length →
        selectLoop sel (it :: rest) = selectLoop sel rest) := by
  intro items
  refine ⟨selectLoop_len_le items [] (by simp), ?_, ?_⟩
  · intro sec
    exact selectLoop_filter_le items [] sec (by simp)
  · intro sel it rest h1 h2
    exact selectLoop_skip sel it rest h1 h2

/-- Witness for C3 at concrete inputs: with two `Bug Fixes` items
already selected, a third `Bug Fixes` item is skipped and a later
`Chores` item is still selected. -/
theorem selection_caps_and_skip_continues_witness :
    ((([⟨"Bug Fixes", ['x']⟩, ⟨"Bug Fixes", ['y']⟩] : List SItem).length < 4 ∧
       2 ≤ (([⟨"Bug Fixes", ['x']⟩, ⟨"Bug Fixes", ['y']⟩] : List SItem).filter
         (fun s => s.sec == (⟨"Bug Fixes", ['z']⟩ : SItem).sec)).length) ∧
      selectLoop [⟨"Bug Fixes", ['x']⟩, ⟨"Bug Fixes", ['y']⟩]
          [⟨"Bug Fixes", ['z']⟩, ⟨"Chores", ['c']⟩]
        = selectLoop [⟨"Bug Fixes", ['x']⟩, ⟨"Bug Fixes", ['y']⟩]
            [⟨"Chores", ['c']⟩]) ∧
    selectLoop [⟨"Bug Fixes", ['x']⟩, ⟨"Bug Fixes", ['y']⟩] [⟨"Chores", ['c']⟩]
      = [⟨"Bug Fixes", ['x']⟩, ⟨"Bug Fixes", ['y']⟩, ⟨"Chores", ['c']⟩] :=
  ⟨⟨by decide,
    (selection_caps_and_skip_continues []).2.2
      [⟨"Bug Fixes", ['x']⟩, ⟨"Bug Fixes", ['y']⟩] ⟨"Bug Fixes", ['z']⟩
      [⟨"Chores", ['c']⟩] (by decide) (by decide)⟩,
   by decide⟩

/-- The C4 scenario body. -/
def scenarioBody : List Char :=
  "Summary by CodeRabbit\n\nNew Features\n- Added dark mode\n\nBug Fixes\n- Fixed crash on save\n".toList

/-- C4: on the scenario body both items are selected in rank order and
the rendered sentence reproduces the literal double-`fixed` quirk (the
`fixed ` prefix is prepended to the already lower-cased item text). -/
theorem coderabbit_scenario_double_fixed :
    (linesAfterMatch markerMatch (splitNl (crlfToLf scenarioBody))).map
        (fun ls => selectLoop [] (sortItems (collectItems none (captureBlock ls))))
      = some [⟨"New Features", "Added dark mode".toList⟩,
              ⟨"Bug Fixes", "Fixed crash on save".toList⟩] ∧
    extractCodeRabbitSummary scenarioBody
      = "Added dark mode and fixed fixed crash on save".toList := by
  constructor
  · decide
  · decide

/-- C5: the code disagrees with its own documentation (and with the
spec scenario): `cleanPRTitle` keeps the inner capitals of
`Weekly-Update-Character-Limit` because the lower-casing branch only
runs for all-upper-case titles, so the result is
`Weekly Update Character Limit`, not `Weekly update character limit`. -/
theorem cleanPRTitle_ticket_scenario :
    cleanPRTitle "TEC-7097/Weekly-Update-Character-Limit/Carlo-Sanchez".toList
      = "Weekly Update Character Limit".toList ∧
    cleanPRTitle "TEC-7097/Weekly-Update-Character-Limit/Carlo-Sanchez".toList
      ≠ "Weekly update character limit".toList := by
  constructor
  · decide
  · decide

/-- C6 counterexample: a `Performance` item is rendered with the label
`performance: ` prepended, not with its text unchanged, both at the
fragment level and through the whole structured extractor. -/
theorem performance_label_cex :
    partOfItem ⟨"Performance", "Faster loads".toList⟩
      = "performance: faster loads".toList ∧
    partOfItem ⟨"Performance", "Faster loads".toList⟩
      ≠ lowerFirst "Faster loads".toList ∧
    extractCodeRabbitSummary
        "Summary by CodeRabbit\n\nPerformance\n- Faster loads\n".toList
      = "Performance: faster loads".toList := by
  refine ⟨by decide, by decide, by decide⟩

/-- C6 amended: in the generator, only sections outside the six cases
New Features, Enhancements, Bug Fixes, Improvements, Validation and
Performance keep their text unchanged (Performance gets a
`performance: ` label); the backfill script has no Performance case, so
there the original five-section statement holds. -/
theorem default_sections_keep_text :
    ∀ (sec : String) (text : List Char),
      (sec ∉ ["New Features", "Enhancements", "Bug Fixes", "Improvements",
              "Validation", "Performance"] →
        sectionTransform sec text = text) ∧
      (sec ∉ ["New Features", "Enhancements", "Bug Fixes", "Improvements",
              "Validation"] →
        sectionTransformBackfill sec text = text) := by
  intro sec text
  constructor
  · intro h
    simp only [List.mem_cons, List.not_mem_nil, or_false, not_or] at h
    obtain ⟨h1, h2, h3, h4, h5, h6⟩ := h
    simp [sectionTransform, h1, h2, h3, h4, h5, h6]
  · intro h
    simp only [List.mem_cons, List.not_mem_nil, or_false, not_or] at h
    obtain ⟨h1, h2, h3, h4, h5⟩ := h
    simp [sectionTransformBackfill, h1, h2, h3, h4, h5]

/-- Witness for the amended C6 at the concrete section `Chores`. -/
theorem default_sections_keep_text_witness :
    (("Chores" : String) ∉ ["New Features", "Enhancements", "Bug Fixes",
        "Improvements", "Validation", "Performance"] ∧
      sectionTransform "Chores" "tidy deps".toList = "tidy deps".toList) ∧
    (("Chores" : String) ∉ ["New Features", "Enhancements", "Bug Fixes",
        "Improvements", "Validation"] ∧
      sectionTransformBackfill "Chores" "tidy deps".toList = "tidy deps".toList) :=
  ⟨⟨by decide, (default_sections_keep_text "Chores" "tidy deps".toList).1 (by decide)⟩,
   ⟨by decide, (default_sections_keep_text "Chores" "tidy deps".toList).2 (by decide)⟩⟩

/-- C9: exclusion and the `isFix`/`isSprint` classification are
functions of the original title alone: two records with the same title
and arbitrary different bodies classify identically. -/
theorem classification_depends_only_on_title :
    ∀ (t b1 b2 : List Char),
      (pipelineEntry t b1).isSome = (pipelineEntry t b2).isSome ∧
      (pipelineEntry t b1).map DisplayEntry.isFix
        = (pipelineEntry t b2).map DisplayEntry.isFix ∧
      (pipelineEntry t b1).map DisplayEntry.isSprint
        = (pipelineEntry t b2).map DisplayEntry.isSprint := by
  intro t b1 b2
  by_cases h : shouldExcludePRTitle t <;>
    simp [pipelineEntry, h]

/-! ## Lemmas about whole-word search -/

lemma char_eq_of_toNat_eq {c d : Char} (h : c.toNat = d.toNat) : c = d := by
  apply Char.eq_of_val_eq
  apply UInt32.eq_of_toBitVec_eq
  exact BitVec.eq_of_toNat_eq h

lemma ciEq_space {d : Char} (h : ciEq ' ' d = true) : d = ' ' := by
  have h32 : (' ' : Char).toNat = 32 := by decide
  unfold ciEq at h
  simp only [Bool.or_eq_true] at h
  rcases h with (h | h) | h
  · exact (of_decide_eq_true h).symm
  · simp only [Bool.and_eq_true] at h
    exact absurd h.1 (by decide)
  · simp only [Bool.and_eq_true] at h
    obtain ⟨hC, hD⟩ := h
    unfold isUpperAscii at hC
    simp only [Bool.and_eq_true] at hC
    have h1' : 65 ≤ d.toNat := of_decide_eq_true hC.1
    have hD' : (' ' : Char).toNat = d.toNat + 32 := of_decide_eq_true hD
    omega

lemma stripCI_append (w1 w2 l : List Char) :
    stripCI (w1 ++ w2) l = (stripCI w1 l).bind (fun r => stripCI w2 r) := by
  induction w1 generalizing l with
  | nil => simp [stripCI]
  | cons c w1 ih =>
    cases l with
    | nil => simp [stripCI]
    | cons d l =>
      by_cases h : ciEq c d = true
      · simp only [List.cons_append, stripCI, if_pos h]
        exact ih l
      · simp only [List.cons_append, stripCI, if_neg h]
        rfl

lemma stripCI_decomp :
    ∀ (w l r : List Char), stripCI w l = some r →
      ∃ pre, l = pre ++ r ∧ pre.length = w.length := by
  intro w
  induction w with
  | nil =>
    intro l r h
    simp only [stripCI, Option.some.injEq] at h
    exact ⟨[], by simp [h], rfl⟩
  | cons c w ih =>
    intro l r h
    cases l with
    | nil => simp [stripCI] at h
    | cons d l =>
      simp only [stripCI] at h
      by_cases hc : ciEq c d = true
      · rw [if_pos hc] at h
        obtain ⟨pre, hpre, hlen⟩ := ih l r h
        exact ⟨d :: pre, by simp [hpre], by simp [hlen]⟩
      · rw [if_neg hc] at h
        exact absurd h (by simp)

lemma containsWordGo_append_last (w : List Char) :
    ∀ (pre : List Char) (c : Char) (b : Bool) (l : List Char),
      containsWordGo w (!isWordChar c) l = true →
      containsWordGo w b (pre ++ c :: l) = true := by
  intro pre
  induction pre with
  | nil =>
    intro c b l h
    simp only [List.nil_append, containsWordGo, Bool.or_eq_true]
    exact Or.inr h
  | cons d pre ih =>
    intro c b l h
    simp only [List.cons_append, containsWordGo, Bool.or_eq_true]
    exact Or.inr (ih c (!isWordChar d) l h)

lemma wordHere_contains (w l : List Char) (hne : w ≠ [])
    (h : wordHere w l = true) : containsWordCI w l = true := by
  cases w with
  | nil => exact absurd rfl hne
  | cons c w =>
    cases l with
    | nil => simp [wordHere, stripCI] at h
    | cons d l =>
      rw [containsWordCI, containsWordGo]
      simp [h]

/-- C10: the title exclusion test is equivalent to the single
whole-word pattern for `staging`; the two anchored patterns are
redundant, since any title they match contains `staging` as a whole
word. -/
theorem exclusion_iff_whole_word_staging :
    ∀ t : List Char,
      shouldExcludePRTitle t = containsWordCI "staging".toList t := by
  intro t
  unfold shouldExcludePRTitle
  cases ha : containsWordCI "staging".toList t with
  | true => simp [ha]
  | false =>
    simp only [ha, Bool.false_or]
    have hc : wordHere "staging".toList t = false := by
      cases hc' : wordHere "staging".toList t with
      | false => rfl
      | true =>
        have := wordHere_contains "staging".toList t (by decide) hc'
        rw [this] at ha
        exact absurd ha (by simp)
    have hb : wordHere "update staging".toList t = false := by
      cases hb' : wordHere "update staging".toList t with
      | false => rfl
      | true =>
        exfalso
        unfold wordHere at hb'
        have hsplit : ("update staging".toList : List Char)
            = "update".toList ++ ' ' :: "staging".toList := by decide
        rw [hsplit, stripCI_append] at hb'
        cases hm1 : stripCI "update".toList t with
        | none => rw [hm1] at hb'; simp at hb'
        | some m1 =>
          rw [hm1] at hb'
          simp only [Option.some_bind] at hb'
          cases m1 with
          | nil => simp [stripCI] at hb'
          | cons d m =>
            simp only [stripCI] at hb'
            by_cases hci : ciEq ' ' d = true
            · rw [if_pos hci] at hb'
              have hd : d = ' ' := ciEq_space hci
              subst hd
              obtain ⟨pre, hpre, _⟩ := stripCI_decomp "update".toList t (' ' :: m) hm1
              cases hstag : stripCI "staging".toList m with
              | none => rw [hstag] at hb'; simp at hb'
              | some r =>
                have hm : containsWordCI "staging".toList m = true := by
                  apply wordHere_contains "staging".toList m (by decide)
                  unfold wordHere
                  rw [hstag]
                  rw [hstag] at hb'
                  exact hb'
                have : containsWordCI "staging".toList t = true := by
                  rw [hpre]
                  apply containsWordGo_append_last
                  have hw : (!isWordChar ' ') = true := by decide
                  rw [hw]
                  exact hm
                rw [this] at ha
                exact absurd ha (by simp)
            · rw [if_neg hci] at hb'
              simp at hb'
    rw [hb, hc]
    rfl

/-! ## Lemmas about truncation -/

lemma lastIdxGo_bound (c : Char) :
    ∀ (l : List Char) (bound i : Nat) (acc : Option Nat),
      (∀ j, acc = some j → j < i) →
      ∀ j, lastIdxOfUpToGo c bound i acc l = some j → j < i + l.length := by
  intro l
  induction l with
  | nil =>
    intro bound i acc hacc j h
    simp only [lastIdxOfUpToGo] at h
    simpa using hacc j h
  | cons d rest ih =>
    intro bound i acc hacc j h
    simp only [lastIdxOfUpToGo] at h
    by_cases hib : i > bound
    · rw [if_pos hib] at h
      have := hacc j h
      simp only [List.length_cons]
      omega
    · rw [if_neg hib] at h
      have hj := ih bound (i + 1) (if d = c then some i else acc) ?_ j h
      · simp only [List.length_cons]
        omega
      · intro j0 hj0
        by_cases hd : d = c
        · rw [if_pos hd] at hj0
          simp only [Option.some.injEq] at hj0
          omega
        · rw [if_neg hd] at hj0
          have := hacc j0 hj0
          omega

/-- Core bound: the single-line summary never exceeds `maxLen`
characters (for positive `maxLen`), the ellipsis counting as one. -/
lemma toSingle_len_le (l : List Char) (maxLen : Nat) (h : 0 < maxLen) :
    (toSingleLineSummary l maxLen).length ≤ maxLen := by
  unfold toSingleLineSummary
  by_cases h0 : flattenWs (normalizeSummaryText l) = []
  · simp [h0]
  · rw [if_neg h0]
    by_cases h1 : (flattenWs (normalizeSummaryText l)).length ≤ maxLen
    · rwa [if_pos h1]
    · rw [if_neg h1]
      push_neg at h1
      simp only [lastIdxOf, lastIdxOfUpTo]
      cases hm : lastIdxOfUpToGo ' '
          ((flattenWs (normalizeSummaryText l)).take maxLen).length 0 none
          ((flattenWs (normalizeSummaryText l)).take maxLen) with
      | none =>
        have hmatch : (match (none : Option Nat) with
            | some i => (i : Int)
            | none => -1) = -1 := rfl
        rw [hmatch, if_neg (by omega)]
        simp only [List.length_append, List.length_take, List.length_cons,
          List.length_nil]
        omega
      | some i =>
        have hib : i < ((flattenWs (normalizeSummaryText l)).take maxLen).length := by
          have := lastIdxGo_bound ' '
            ((flattenWs (normalizeSummaryText l)).take maxLen)
            ((flattenWs (normalizeSummaryText l)).take maxLen).length 0 none
            (by intro j hj; cases hj) i hm
          simpa using this
        have hib' : i < maxLen := by
          simp only [List.length_take] at hib
          omega
        have hmatch : (match (some i : Option Nat) with
            | some k => (k : Int)
            | none => -1) = (i : Int) := rfl
        rw [hmatch]
        have htoNat : ((i : Int)).toNat = i := Int.toNat_natCast i
        by_cases hcond : 6 * (maxLen : Int) ≤ 10 * (i : Int)
        · rw [if_pos hcond]
          simp only [List.length_append, List.length_take, List.length_cons,
            List.length_nil, htoNat]
          omega
        · rw [if_neg hcond]
          simp only [List.length_append, List.length_take, List.length_cons,
            List.length_nil]
          omega

/-- C7: for every text and every positive `maxLen`, the single-line
summary has length at most `maxLen`, the trailing ellipsis character
counting as one. -/
theorem truncation_bound :
    ∀ (text : List Char) (maxLen : Nat), 0 < maxLen →
      (toSingleLineSummary text maxLen).length ≤ maxLen := by
  intro text maxLen h
  exact toSingle_len_le text maxLen h

/-- Witness for C7 at a concrete text and bound. -/
theorem truncation_bound_witness :
    0 < 9 ∧ (toSingleLineSummary "one two three".toList 9).length ≤ 9 :=
  ⟨by decide, truncation_bound "one two three".toList 9 (by decide)⟩

/-! ## Lemmas about the fallback chain -/

lemma normalize_nil : normalizeSummaryText [] = [] := rfl

lemma toSingle_nil (n : Nat) : toSingleLineSummary [] n = [] := rfl

lemma linesAfterMatch_none (f : List Char → Bool) :
    ∀ ls : List (List Char), (∀ l ∈ ls, f (trimWs l) = false) →
      linesAfterMatch f ls = none := by
  intro ls
  induction ls with
  | nil => intro _; rfl
  | cons l rest ih =>
    intro h
    simp only [linesAfterMatch]
    rw [h l (by simp)]
    simpa using ih (fun x hx => h x (by simp [hx]))

/-- C8: when no line of the body matches the CodeRabbit marker and no
line matches any summary-heading pattern, the summary selector returns
the empty string and the pipeline falls back to the cleaned original
title. -/
theorem no_marker_no_heading_uses_cleaned_title :
    ∀ (body title : List Char),
      (∀ l ∈ splitNl (crlfToLf body),
        markerMatch (trimWs l) = false ∧
        ∀ f ∈ summaryHeadingMatchers, f (trimWs l) = false) →
      extractPreferredSummaryFromBody body = [] ∧
      displayTitle title body = cleanPRTitle title := by
  intro body title H
  have hcr : extractCodeRabbitSummary body = [] := by
    unfold extractCodeRabbitSummary
    by_cases hb : body = []
    · rw [if_pos hb]
    · rw [if_neg hb, linesAfterMatch_none markerMatch _ (fun l hl => (H l hl).1)]
  have hsec : ∀ f ∈ summaryHeadingMatchers, extractSectionUnderHeading body f = [] := by
    intro f hf
    unfold extractSectionUnderHeading
    by_cases hb : body = []
    · rw [if_pos hb]
    · rw [if_neg hb, linesAfterMatch_none f _ (fun l hl => (H l hl).2 f hf)]
  have h1 : extractSectionUnderHeading body (headingWordMatch "summary") = [] :=
    hsec _ (by simp [summaryHeadingMatchers])
  have h2 : extractSectionUnderHeading body (headingWordMatch "tldr") = [] :=
    hsec _ (by simp [summaryHeadingMatchers])
  have h3 : extractSectionUnderHeading body (headingWordMatch "tl;dr") = [] :=
    hsec _ (by simp [summaryHeadingMatchers])
  have h4 : extractSectionUnderHeading body (headingWordMatch "overview") = [] :=
    hsec _ (by simp [summaryHeadingMatchers])
  have hpref : extractPreferredSummaryFromBody body = [] := by
    unfold extractPreferredSummaryFromBody
    by_cases hb : body = []
    · rw [if_pos hb]
    · rw [if_neg hb]
      simp [summaryHeadingMatchers, firstHeadingSummary, hcr, h1, h2, h3, h4,
        normalize_nil]
  refine ⟨hpref, ?_⟩
  simp [displayTitle, hpref, toSingle_nil]

/-- Witness for C8 at a concrete marker-free, heading-free body. -/
theorem no_marker_no_heading_uses_cleaned_title_witness :
    (∀ l ∈ splitNl (crlfToLf "hello\nworld".toList),
      markerMatch (trimWs l) = false ∧
      ∀ f ∈ summaryHeadingMatchers, f (trimWs l) = false) ∧
    (extractPreferredSummaryFromBody "hello\nworld".toList = [] ∧
      displayTitle "Fix z".toList "hello\nworld".toList
        = cleanPRTitle "Fix z".toList) :=
  ⟨by decide,
   no_marker_no_heading_uses_cleaned_title "hello\nworld".toList "Fix z".toList
     (by decide)⟩

/-! ## Lemmas about newline freedom of display titles -/

lemma toNat_ofNat_valid (n : Nat) (h : n.isValidChar) : (Char.ofNat n).toNat = n := by
  simp [Char.ofNat, h, Char.ofNatAux, Char.toNat, UInt32.toNat, BitVec.toNat_ofNatLt]

lemma lowerChar_eq_nl {c : Char} (h : lowerChar c = '\n') : c = '\n' := by
  unfold lowerChar at h
  by_cases hu : isUpperAscii c = true
  · rw [if_pos hu] at h
    exfalso
    unfold isUpperAscii at hu
    simp only [Bool.and_eq_true, decide_eq_true_eq] at hu
    have hv : (c.toNat + 32).isValidChar := Or.inl (by omega)
    have := congrArg Char.toNat h
    rw [toNat_ofNat_valid _ hv] at this
    have h10 : ('\n' : Char).toNat = 10 := by decide
    omega
  · rw [if_neg hu] at h
    exact h

lemma upperChar_eq_nl {c : Char} (h : upperChar c = '\n') : c = '\n' := by
  unfold upperChar at h
  by_cases hu : isLowerAscii c = true
  · rw [if_pos hu] at h
    exfalso
    unfold isLowerAscii at hu
    simp only [Bool.and_eq_true, decide_eq_true_eq] at hu
    have hv : (c.toNat - 32).isValidChar := Or.inl (by omega)
    have := congrArg Char.toNat h
    rw [toNat_ofNat_valid _ hv] at this
    have h10 : ('\n' : Char).toNat = 10 := by decide
    omega
  · rw [if_neg hu] at h
    exact h

lemma mem_wsRunsToSpace {c : Char} :
    ∀ (b : Bool) (l : List Char), c ∈ wsRunsToSpace b l →
      c = ' ' ∨ isWsChar c = false := by
  intro b l
  induction l generalizing b with
  | nil => intro h; simp [wsRunsToSpace] at h
  | cons d rest ih =>
    intro h
    simp only [wsRunsToSpace] at h
    by_cases hw : isWsChar d = true
    · rw [if_pos hw] at h
      by_cases hb : b = true
      · rw [if_pos hb] at h
        exact ih true h
      · rw [if_neg hb] at h
        rcases List.mem_cons.1 h with h | h
        · exact Or.inl h
        · exact ih true h
    · rw [if_neg hw] at h
      rcases List.mem_cons.1 h with h | h
      · subst h
        exact Or.inr (by simpa using hw)
      · exact ih false h

lemma nl_not_mem_flattenWs (l : List Char) : '\n' ∉ flattenWs l := by
  intro h
  rcases mem_wsRunsToSpace false l h with h | h
  · exact absurd h (by decide)
  · exact absurd h (by decide)

lemma mem_trimWs {c : Char} {l : List Char} (h : c ∈ trimWs l) : c ∈ l := by
  unfold trimWs trimRightWs at h
  rw [List.mem_reverse] at h
  have h1 := (List.dropWhile_sublist isWsChar (l := (l.dropWhile isWsChar).reverse)).subset h
  rw [List.mem_reverse] at h1
  exact (List.dropWhile_sublist isWsChar (l := l)).subset h1

lemma nl_not_mem_toSingle (l : List Char) (n : Nat) :
    '\n' ∉ toSingleLineSummary l n := by
  unfold toSingleLineSummary
  by_cases h0 : flattenWs (normalizeSummaryText l) = []
  · simp [h0]
  · rw [if_neg h0]
    by_cases h1 : (flattenWs (normalizeSummaryText l)).length ≤ n
    · rw [if_pos h1]
      exact nl_not_mem_flattenWs _
    · rw [if_neg h1]
      show '\n' ∉
        (if 6 * (n : Int)
            ≤ 10 * lastIdxOf ' ' ((flattenWs (normalizeSummaryText l)).take n) then
          ((flattenWs (normalizeSummaryText l)).take n).take
              (lastIdxOf ' ' ((flattenWs (normalizeSummaryText l)).take n)).toNat
            ++ ['…']
        else (flattenWs (normalizeSummaryText l)).take (n - 1) ++ ['…'])
      split_ifs with hcond
      · intro hmem
        rcases List.mem_append.1 hmem with h | h
        · exact nl_not_mem_flattenWs _
            (List.take_subset _ _ (List.take_subset _ _ h))
        · exact absurd h (by decide)
      · intro hmem
        rcases List.mem_append.1 hmem with h | h
        · exact nl_not_mem_flattenWs _ (List.take_subset _ _ h)
        · exact absurd h (by decide)

lemma sentenceCase_no_nl (t : List Char) (h : '\n' ∉ t) : '\n' ∉ sentenceCase t := by
  cases t with
  | nil => simp [sentenceCase]
  | cons c rest =>
    simp only [sentenceCase]
    split_ifs with hcase
    · intro hmem
      rcases List.mem_cons.1 hmem with h1 | h1
      · exact h (by simp [upperChar_eq_nl h1.symm])
      · rcases List.mem_map.1 h1 with ⟨d, hd, hde⟩
        have : d = '\n' := lowerChar_eq_nl hde
        subst this
        exact h (by simp [hd])
    · intro hmem
      rcases List.mem_cons.1 hmem with h1 | h1
      · exact h (by simp [upperChar_eq_nl h1.symm])
      · exact h (by simp [h1])

lemma cleanPRTitle_no_nl (raw : List Char) : '\n' ∉ cleanPRTitle raw := by
  have hz : ∃ z : List Char, cleanPRTitle raw
      = sentenceCase (trimWs (flattenWs (z.map fun c => if c = '-' then ' ' else c))) :=
    ⟨_, rfl⟩
  obtain ⟨z, hzeq⟩ := hz
  rw [hzeq]
  apply sentenceCase_no_nl
  intro h
  exact nl_not_mem_flattenWs _ (mem_trimWs h)

/-- C1 amended: the display title selected by the pipeline never
contains a newline; when the body-derived summary is non-empty it is
also non-empty and at most 200 characters long.  (The cleaned-title
fallback is single-line but is neither truncated to 200 characters nor
guaranteed non-empty.) -/
theorem display_title_single_line_and_bounded :
    ∀ (title body : List Char),
      '\n' ∉ displayTitle title body ∧
      (toSingleLineSummary (extractPreferredSummaryFromBody body) 200 ≠ [] →
        displayTitle title body ≠ [] ∧ (displayTitle title body).length ≤ 200) := by
  intro title body
  by_cases hs : toSingleLineSummary (extractPreferredSummaryFromBody body) 200 = []
  · have hd : displayTitle title body = cleanPRTitle title := by
      simp [displayTitle, hs]
    rw [hd]
    exact ⟨cleanPRTitle_no_nl title, fun hcon => absurd hs hcon⟩
  · have hd : displayTitle title body
        = toSingleLineSummary (extractPreferredSummaryFromBody body) 200 := by
      simp [displayTitle, hs]
    rw [hd]
    exact ⟨nl_not_mem_toSingle _ 200,
      fun _ => ⟨hs, toSingle_len_le _ 200 (by norm_num)⟩⟩

/-- C1 counterexample: a 201-character title with an empty body passes
the exclusion filter, yet its display title (the untruncated cleaned
title) has 201 characters, violating the 200-character bound claimed for
every non-excluded record. -/
theorem display_title_bound_cex :
    (pipelineEntry (List.replicate 201 'a') []).isSome = true ∧
    (pipelineEntry (List.replicate 201 'a') []).map (fun e => e.title.length)
      = some 201 := by
  constructor
  · decide
  · decide

/-- Witness for the amended C1 at a record whose body supplies the
summary. -/
theorem display_title_single_line_and_bounded_witness :
    toSingleLineSummary
        (extractPreferredSummaryFromBody "## Summary\nGreat stuff".toList) 200 ≠ [] ∧
    ('\n' ∉ displayTitle "T".toList "## Summary\nGreat stuff".toList ∧
      (displayTitle "T".toList "## Summary\nGreat stuff".toList ≠ [] ∧
        (displayTitle "T".toList "## Summary\nGreat stuff".toList).length ≤ 200)) :=
  ⟨by decide,
   (display_title_single_line_and_bounded "T".toList "## Summary\nGreat stuff".toList).1,
   (display_title_single_line_and_bounded "T".toList "## Summary\nGreat stuff".toList).2
     (by decide)⟩

/-! ## Lemmas about idempotence of the Text Normalizer -/

lemma crlf_id : ∀ l : List Char, '\r' ∉ l → crlfToLf l = l := by
  intro l
  induction l with
  | nil => intro _; rfl
  | cons c rest ih =>
    intro h
    have hc : ¬(c = '\r') := by
      intro hh
      exact h (by simp [hh])
    have h' : '\r' ∉ rest := fun hh => h (List.mem_cons_of_mem _ hh)
    rw [crlfToLf.eq_def]
    simp only [if_neg hc]
    rw [ih h']

lemma stripBulletsGo_id :
    ∀ l : List Char, '-' ∉ l → '*' ∉ l →
      ∀ pend : Bool, stripBulletsGo false pend l = l := by
  intro l
  induction l with
  | nil => intro _ _ _; rfl
  | cons c rest ih =>
    intro h1 h2 pend
    have hc1 : ¬(c = '-') := by intro hh; exact h1 (by simp [hh])
    have hc2 : ¬(c = '*') := by intro hh; exact h2 (by simp [hh])
    have h1' : '-' ∉ rest := fun hh => h1 (List.mem_cons_of_mem _ hh)
    have h2' : '*' ∉ rest := fun hh => h2 (List.mem_cons_of_mem _ hh)
    rw [stripBulletsGo.eq_def]
    simp [hc1, hc2, ih h1' h2']

lemma stripNumsGo_id :
    ∀ l : List Char, '.' ∉ l →
      (∀ pend : Bool, stripNumsGo none false pend l = l) ∧
      (∀ (acc : List Char) (b1 b2 : Bool),
        stripNumsGo (some acc) b1 b2 l = acc.reverse ++ l) := by
  intro l
  induction l with
  | nil =>
    intro _
    exact ⟨fun _ => rfl, fun acc _ _ => by simp [stripNumsGo]⟩
  | cons c rest ih =>
    intro h
    have hc : ¬(c = '.') := by intro hh; exact h (by simp [hh])
    have h' : '.' ∉ rest := fun hh => h (List.mem_cons_of_mem _ hh)
    obtain ⟨ihn, ihs⟩ := ih h'
    constructor
    · intro pend
      by_cases hd : isDigitChar c = true
      · rw [stripNumsGo.eq_def]
        simp [hd, ihs [c], ihn]
      · rw [stripNumsGo.eq_def]
        simp [hd, ihn]
    · intro acc b1 b2
      by_cases hd : isDigitChar c = true
      · rw [stripNumsGo.eq_def]
        simp [hd, ihs (c :: acc)]
      · rw [stripNumsGo.eq_def]
        simp [hd, hc, ihn]

/-- No three consecutive newline characters. -/
def noTriple : List Char → Prop
  | [] => True
  | [_] => True
  | [_, _] => True
  | a :: b :: c :: rest =>
    ¬(a = '\n' ∧ b = '\n' ∧ c = '\n') ∧ noTriple (b :: c :: rest)

lemma noTriple_tail {c : Char} {l : List Char} (h : noTriple (c :: l)) :
    noTriple l := by
  match l with
  | [] => trivial
  | [_] => trivial
  | _ :: _ :: _ => exact h.2

lemma noTriple_cons_of_ne {c : Char} {t : List Char} (hc : ¬(c = '\n'))
    (ht : noTriple t) : noTriple (c :: t) := by
  match t with
  | [] => trivial
  | [_] => trivial
  | _ :: _ :: _ => exact ⟨fun hh => hc hh.1, ht⟩

lemma noTriple_nl_cons {c : Char} {t : List Char} (hc : ¬(c = '\n'))
    (ht : noTriple (c :: t)) : noTriple ('\n' :: c :: t) := by
  match t with
  | [] => trivial
  | _ :: _ => exact ⟨fun hh => hc hh.2.1, ht⟩

lemma noTriple_block {m : Nat} {c : Char} {t : List Char} (hm : m ≤ 2)
    (hc : ¬(c = '\n')) (ht : noTriple t) :
    noTriple (List.replicate m '\n' ++ c :: t) := by
  interval_cases m
  · exact noTriple_cons_of_ne hc ht
  · exact noTriple_nl_cons hc (noTriple_cons_of_ne hc ht)
  · exact ⟨fun hh => hc hh.2.2, noTriple_nl_cons hc (noTriple_cons_of_ne hc ht)⟩

lemma noTriple_replicate_min (n : Nat) :
    noTriple (List.replicate (min n 2) '\n') := by
  have : min n 2 ≤ 2 := Nat.min_le_right n 2
  interval_cases h : min n 2 <;> trivial

lemma noTriple_collapseGo : ∀ (l : List Char) (n : Nat),
    noTriple (collapseNlGo n l) := by
  intro l
  induction l with
  | nil => intro n; exact noTriple_replicate_min n
  | cons c rest ih =>
    intro n
    by_cases hc : c = '\n'
    · simp only [collapseNlGo, if_pos hc]
      exact ih (n + 1)
    · simp only [collapseNlGo, if_neg hc]
      exact noTriple_block (Nat.min_le_right n 2) hc (ih 0)

lemma noTriple_takeWhile_le {l : List Char} (h : noTriple l) :
    (l.takeWhile (fun c => c = '\n')).length ≤ 2 := by
  match l with
  | [] => simp
  | [a] => by_cases ha : a = '\n' <;> simp [List.takeWhile, ha]
  | [a, b] =>
    by_cases ha : a = '\n' <;> by_cases hb : b = '\n' <;>
      simp [List.takeWhile, ha, hb]
  | a :: b :: c :: rest =>
    by_cases ha : a = '\n'
    · by_cases hb : b = '\n'
      · by_cases hc : c = '\n'
        · exact absurd ⟨ha, hb, hc⟩ h.1
        · simp [List.takeWhile, ha, hb, hc]
      · simp [List.takeWhile, ha, hb]
    · simp [List.takeWhile, ha]

lemma collapseGo_id : ∀ l : List Char, noTriple l →
    ∀ n : Nat, n + (l.takeWhile (fun c => c = '\n')).length ≤ 2 →
      collapseNlGo n l = List.replicate n '\n' ++ l := by
  intro l
  induction l with
  | nil =>
    intro _ n hn
    simp only [collapseNlGo, List.append_nil]
    have : min n 2 = n := by omega
    rw [this]
  | cons c rest ih =>
    intro h n hn
    by_cases hc : c = '\n'
    · subst hc
      rw [List.takeWhile_cons_of_pos (by simp)] at hn
      simp only [List.length_cons] at hn
      simp only [collapseNlGo, if_pos rfl]
      rw [ih (noTriple_tail h) (n + 1) (by omega)]
      rw [List.replicate_succ' n '\n']
      simp
    · rw [List.takeWhile_cons_of_neg (by simp [hc])] at hn
      simp only [List.length_nil] at hn
      simp only [collapseNlGo, if_neg hc]
      have : min n 2 = n := by omega
      rw [this]
      rw [ih (noTriple_tail h) 0 ?_]
      · simp
      · have := noTriple_takeWhile_le (noTriple_tail h)
        omega

lemma collapseNl_id {l : List Char} (h : noTriple l) : collapseNl l = l := by
  unfold collapseNl
  rw [collapseGo_id l h 0 (by simpa using noTriple_takeWhile_le h)]
  simp

lemma noTriple_append_left : ∀ x y : List Char, noTriple (x ++ y) → noTriple x := by
  intro x
  induction x with
  | nil => intro _ _; trivial
  | cons a x2 ih =>
    intro y h
    match x2, h with
    | [], _ => trivial
    | [b], _ => trivial
    | b :: c :: x3, h => exact ⟨h.1, ih y h.2⟩

lemma noTriple_dropWhile {p : Char → Bool} :
    ∀ l : List Char, noTriple l → noTriple (l.dropWhile p) := by
  intro l
  induction l with
  | nil => intro _; trivial
  | cons c rest ih =>
    intro h
    by_cases hc : p c = true
    · rw [List.dropWhile_cons_of_pos hc]
      exact ih (noTriple_tail h)
    · rw [List.dropWhile_cons_of_neg (by simpa using hc)]
      exact h

lemma trimRightWs_prefix (l : List Char) : trimRightWs l <+: l := by
  unfold trimRightWs
  have h := List.dropWhile_suffix (l := l.reverse) isWsChar
  have := List.reverse_prefix.2 h
  simpa using this

lemma noTriple_trimWs {l : List Char} (h : noTriple l) : noTriple (trimWs l) := by
  unfold trimWs
  obtain ⟨y, hy⟩ := trimRightWs_prefix (l.dropWhile isWsChar)
  exact noTriple_append_left _ y (by rw [hy]; exact noTriple_dropWhile l h)

lemma dropWhile_head_false {p : Char → Bool} :
    ∀ (l : List Char) (c : Char) (t : List Char),
      l.dropWhile p = c :: t → p c = false := by
  intro l
  induction l with
  | nil => intro c t h; simp at h
  | cons d rest ih =>
    intro c t h
    by_cases hd : p d = true
    · rw [List.dropWhile_cons_of_pos hd] at h
      exact ih c t h
    · rw [List.dropWhile_cons_of_neg (by simpa using hd)] at h
      injection h with h1 _
      subst h1
      simpa using hd

lemma dropWhile_dropWhile (p : Char → Bool) (l : List Char) :
    (l.dropWhile p).dropWhile p = l.dropWhile p := by
  cases h : l.dropWhile p with
  | nil => simp
  | cons c t =>
    have hc : p c = false := dropWhile_head_false l c t h
    rw [List.dropWhile_cons_of_neg (by simp [hc])]

lemma trimRightWs_idem (l : List Char) :
    trimRightWs (trimRightWs l) = trimRightWs l := by
  unfold trimRightWs
  rw [List.reverse_reverse, dropWhile_dropWhile]

lemma dropWhile_trimRight_of_clean {l : List Char}
    (h : l.dropWhile isWsChar = l) :
    (trimRightWs l).dropWhile isWsChar = trimRightWs l := by
  cases ht : trimRightWs l with
  | nil => simp
  | cons c t =>
    obtain ⟨y, hy⟩ := trimRightWs_prefix l
    rw [ht] at hy
    have hl : l = c :: (t ++ y) := by
      rw [← hy]
      simp
    have hc : isWsChar c = false := by
      by_contra hc'
      have hc'' : isWsChar c = true := by simpa using hc'
      rw [hl, List.dropWhile_cons_of_pos hc''] at h
      have hle : ((t ++ y).dropWhile isWsChar).length ≤ (t ++ y).length :=
        (List.dropWhile_sublist _).length_le
      have hlen := congrArg List.length h
      rw [List.length_cons] at hlen
      omega
    rw [List.dropWhile_cons_of_neg (by simp [hc])]

lemma trimWs_idem (l : List Char) : trimWs (trimWs l) = trimWs l := by
  unfold trimWs
  rw [dropWhile_trimRight_of_clean (dropWhile_dropWhile isWsChar l)]
  exact trimRightWs_idem _

lemma mem_collapseGo {c : Char} :
    ∀ (l : List Char) (n : Nat), c ∈ collapseNlGo n l → c = '\n' ∨ c ∈ l := by
  intro l
  induction l with
  | nil =>
    intro n h
    simp only [collapseNlGo] at h
    exact Or.inl (List.eq_of_mem_replicate h)
  | cons d rest ih =>
    intro n h
    by_cases hd : d = '\n'
    · simp only [collapseNlGo, if_pos hd] at h
      rcases ih (n + 1) h with h | h
      · exact Or.inl h
      · exact Or.inr (List.mem_cons_of_mem _ h)
    · simp only [collapseNlGo, if_neg hd] at h
      rcases List.mem_append.1 h with h | h
      · exact Or.inl (List.eq_of_mem_replicate h)
      · rcases List.mem_cons.1 h with h | h
        · exact Or.inr (by simp [h])
        · rcases ih 0 h with h | h
          · exact Or.inl h
          · exact Or.inr (List.mem_cons_of_mem _ h)

/-- C2 counterexample: the Text Normalizer is not idempotent.  A lone
CR before a CRLF collapses only on the second pass, and stripping an
ordered-list marker can expose a bullet marker that only the second
pass strips. -/
theorem normalize_not_idempotent :
    normalizeSummaryText (normalizeSummaryText "a\r\r\nb".toList)
      ≠ normalizeSummaryText "a\r\r\nb".toList ∧
    normalizeSummaryText (normalizeSummaryText "1. - x".toList)
      ≠ normalizeSummaryText "1. - x".toList := by
  constructor
  · decide
  · decide

/-- C2 amended: `normalizeSummaryText` is idempotent on every input that
contains no carriage return and none of the list-marker characters
`-`, `*`, `.` (the counterexamples show both restrictions are needed:
CR handling and marker stripping are each a source of second-pass
changes). -/
theorem normalize_idempotent_on_plain :
    ∀ l : List Char, '\r' ∉ l → '-' ∉ l → '*' ∉ l → '.' ∉ l →
      normalizeSummaryText (normalizeSummaryText l) = normalizeSummaryText l := by
  intro l h1 h2 h3 h4
  have e0 : crlfToLf l = l := crlf_id l h1
  have e1 : stripBullets l = l := stripBulletsGo_id l h2 h3 true
  have e2 : stripNums l = l := (stripNumsGo_id l h4).1 true
  have hnorm : normalizeSummaryText l = trimWs (collapseNl l) := by
    unfold normalizeSummaryText
    rw [e0]
    rw [show stripBullets l = l from e1, show stripNums l = l from e2]
  have hmemy : ∀ c : Char, c ∈ trimWs (collapseNl l) → c = '\n' ∨ c ∈ l := by
    intro c hcy
    exact mem_collapseGo l 0 (mem_trimWs hcy)
  have hy1 : '\r' ∉ trimWs (collapseNl l) := by
    intro hh
    rcases hmemy _ hh with h | h
    · exact absurd h (by decide)
    · exact h1 h
  have hy2 : '-' ∉ trimWs (collapseNl l) := by
    intro hh
    rcases hmemy _ hh with h | h
    · exact absurd h (by decide)
    · exact h2 h
  have hy3 : '*' ∉ trimWs (collapseNl l) := by
    intro hh
    rcases hmemy _ hh with h | h
    · exact absurd h (by decide)
    · exact h3 h
  have hy4 : '.' ∉ trimWs (collapseNl l) := by
    intro hh
    rcases hmemy _ hh with h | h
    · exact absurd h (by decide)
    · exact h4 h
  have hnormy : normalizeSummaryText (trimWs (collapseNl l))
      = trimWs (collapseNl (trimWs (collapseNl l))) := by
    unfold normalizeSummaryText
    rw [crlf_id _ hy1]
    rw [show stripBullets (trimWs (collapseNl l)) = trimWs (collapseNl l) from
      stripBulletsGo_id _ hy2 hy3 true]
    rw [show stripNums (trimWs (collapseNl l)) = trimWs (collapseNl l) from
      (stripNumsGo_id _ hy4).1 true]
  have hT : noTriple (collapseNl l) := noTriple_collapseGo l 0
  have hTy : noTriple (trimWs (collapseNl l)) := noTriple_trimWs hT
  have hcy : collapseNl (trimWs (collapseNl l)) = trimWs (collapseNl l) :=
    collapseNl_id hTy
  rw [hnorm, hnormy, hcy, trimWs_idem]

/-- Witness for the amended C2 at a concrete marker-free text. -/
theorem normalize_idempotent_on_plain_witness :
    ('\r' ∉ "a\n\n\n\nb  c ".toList ∧ '-' ∉ "a\n\n\n\nb  c ".toList ∧
      '*' ∉ "a\n\n\n\nb  c ".toList ∧ '.' ∉ "a\n\n\n\nb  c ".toList) ∧
    normalizeSummaryText (normalizeSummaryText "a\n\n\n\nb  c ".toList)
      = normalizeSummaryText "a\n\n\n\nb  c ".toList :=
  ⟨by decide,
   normalize_idempotent_on_plain "a\n\n\n\nb  c ".toList
     (by decide) (by decide) (by decide) (by decide)⟩

end RelNotes
